import Mathlib

/-!
Verification development for the piton Python learner scripts
(`lib.py`, `wittgenstein_learner.py`, `sklearn_learner.py`).

Python strings are modelled as `List Char`; Python `str.replace`,
`str.startswith` and the `re` patterns used by the rule-list normalizer are
embedded below.  Fallible Python code (exceptions, `sys.exit`) is modelled
with `Option` / `Except`.
-/

namespace Piton

/-- Python `s.startswith(pat)` on character lists: `startsW s pat` is true
iff `pat` is an initial segment of `s`. -/
def startsW : List Char → List Char → Bool
  | _, [] => true
  | [], _ :: _ => false
  | c :: cs, p :: ps => c == p && startsW cs ps

/-- `occurs pat s` : does `pat` occur as a contiguous substring of `s`?
(Python `pat in s`.) -/
def occurs (pat : List Char) : List Char → Bool
  | [] => startsW [] pat
  | c :: s => startsW (c :: s) pat || occurs pat s

/-- Fuel-driven core of Python `s.replace(pat, rep)`: replaces every
non-overlapping occurrence of `pat`, scanning left to right.  All patterns
used by the scripts are nonempty, so the empty-pattern branch is never
exercised. -/
def replaceAllF : Nat → List Char → List Char → List Char → List Char
  | 0, _, _, s => s
  | fuel + 1, pat, rep, s =>
    if !pat.isEmpty && startsW s pat then
      rep ++ replaceAllF fuel pat rep (s.drop pat.length)
    else
      match s with
      | [] => []
      | c :: s' => c :: replaceAllF fuel pat rep s'

/-- Python `s.replace(pat, rep)`. -/
def replaceAll (pat rep s : List Char) : List Char :=
  replaceAllF (s.length + 1) pat rep s

/-- `lib.replace_words(s, words)` : fold the substitution table over the
string, in table order (Python dicts preserve insertion order). -/
def replace_words (s : List Char) (words : List (List Char × List Char)) : List Char :=
  words.foldl (fun acc kv => replaceAll kv.1 kv.2 acc) s

theorem startsW_self (s : List Char) : startsW s s = true := by
  induction s with
  | nil => rfl
  | cons c cs ih => simp [startsW, ih]

theorem startsW_iff_append {s pat : List Char} :
    startsW s pat = true ↔ ∃ t, s = pat ++ t := by
  induction pat generalizing s with
  | nil => simp [startsW]
  | cons p ps ih =>
    cases s with
    | nil => simp [startsW]
    | cons c cs =>
      simp only [startsW, Bool.and_eq_true, beq_iff_eq, ih, List.cons_append,
        List.cons.injEq]
      constructor
      · rintro ⟨hc, t, ht⟩; exact ⟨t, hc, ht⟩
      · rintro ⟨t, hc, ht⟩; exact ⟨hc, t, ht⟩

theorem mem_of_startsW {s pat : List Char} {c : Char}
    (h : startsW s pat = true) (hc : c ∈ pat) : c ∈ s := by
  rcases startsW_iff_append.mp h with ⟨t, rfl⟩
  exact List.mem_append_left _ hc

theorem occurs_eq_false_of_missing_char {pat s : List Char} {c : Char}
    (hc : c ∈ pat) (hs : c ∉ s) : occurs pat s = false := by
  induction s with
  | nil =>
    cases pat with
    | nil => exact absurd hc (List.not_mem_nil c)
    | cons p ps => rfl
  | cons x xs ih =>
    have hx : c ∉ xs := fun h => hs (List.mem_cons_of_mem _ h)
    have h1 : startsW (x :: xs) pat = false := by
      cases h : startsW (x :: xs) pat with
      | false => rfl
      | true => exact absurd (mem_of_startsW h hc) hs
    simp [occurs, h1, ih hx]

theorem occurs_iff {pat s : List Char} :
    occurs pat s = true ↔ ∃ t₁ t₂, s = t₁ ++ pat ++ t₂ := by
  induction s with
  | nil =>
    cases pat with
    | nil => simp [occurs, startsW]
    | cons p ps =>
      simp only [occurs, startsW, Bool.false_eq_true, false_iff]
      rintro ⟨t₁, t₂, h⟩
      exact absurd h.symm (by simp)
  | cons x xs ih =>
    simp only [occurs, Bool.or_eq_true, startsW_iff_append, ih]
    constructor
    · rintro (⟨t, h⟩ | ⟨t₁, t₂, rfl⟩)
      · exact ⟨[], t, by simpa using h⟩
      · exact ⟨x :: t₁, t₂, rfl⟩
    · rintro ⟨t₁, t₂, h⟩
      cases t₁ with
      | nil => exact Or.inl ⟨t₂, by simpa using h⟩
      | cons y ys =>
        simp only [List.cons_append, List.cons.injEq] at h
        exact Or.inr ⟨ys, t₂, h.2⟩

theorem replaceAllF_of_not_occurs {pat rep s : List Char} {fuel : Nat}
    (h : occurs pat s = false) : replaceAllF fuel pat rep s = s := by
  induction fuel generalizing s with
  | zero => rfl
  | succ n ih =>
    cases s with
    | nil =>
      cases pat with
      | nil => simp [occurs, startsW] at h
      | cons p ps => simp [replaceAllF, startsW]
    | cons c cs =>
      have h1 : startsW (c :: cs) pat = false := by
        have := h; simp only [occurs, Bool.or_eq_false_iff] at this; exact this.1
      have h2 : occurs pat cs = false := by
        have := h; simp only [occurs, Bool.or_eq_false_iff] at this; exact this.2
      simp [replaceAllF, h1, ih h2]

theorem replaceAll_of_not_occurs {pat rep s : List Char}
    (h : occurs pat s = false) : replaceAll pat rep s = s :=
  replaceAllF_of_not_occurs h

theorem replaceAll_self {pat rep : List Char} (h : pat ≠ []) :
    replaceAll pat rep pat = rep := by
  cases pat with
  | nil => exact absurd rfl h
  | cons p ps =>
    show replaceAllF (ps.length + 2) (p :: ps) rep (p :: ps) = rep
    have h1 : startsW (p :: ps) (p :: ps) = true := startsW_self _
    simp only [replaceAllF, List.isEmpty_cons, Bool.not_false, Bool.true_and, h1,
      if_pos]
    have hdrop : (p :: ps).drop (p :: ps).length = ([] : List Char) :=
      List.drop_length _
    rw [hdrop]
    show rep ++ replaceAllF (ps.length + 1) (p :: ps) rep [] = rep
    simp [replaceAllF, startsW]

theorem replace_words_id {s : List Char} {words : List (List Char × List Char)}
    (h : ∀ kv ∈ words, occurs kv.1 s = false) : replace_words s words = s := by
  induction words with
  | nil => rfl
  | cons kv ws ih =>
    have h1 : replaceAll kv.1 kv.2 s = s :=
      replaceAll_of_not_occurs (h kv (List.mem_cons_self _ _))
    show replace_words (replaceAll kv.1 kv.2 s) ws = s
    rw [h1]
    exact ih (fun kv' hkv' => h kv' (List.mem_cons_of_mem _ hkv'))

/-- If an occurrence of `c` splits two appended lists each avoiding `c`,
the split is unique. -/
theorem append_cons_inj {c : Char} :
    ∀ {a b u v : List Char}, c ∉ a → c ∉ b →
      a ++ c :: u = b ++ c :: v → a = b ∧ u = v := by
  intro a
  induction a with
  | nil =>
    intro b u v _ hb h
    cases b with
    | nil => simpa using h
    | cons x bs =>
      simp only [List.nil_append, List.cons_append, List.cons.injEq] at h
      exact absurd (h.1 ▸ List.mem_cons_self x bs) (h.1 ▸ hb)
  | cons x as ih =>
    intro b u v ha hb h
    cases b with
    | nil =>
      simp only [List.cons_append, List.nil_append, List.cons.injEq] at h
      exact absurd (h.1 ▸ List.mem_cons_self x as) (h.1 ▸ ha)
    | cons y bs =>
      simp only [List.cons_append, List.cons.injEq] at h
      have ha' : c ∉ as := fun hm => ha (List.mem_cons_of_mem _ hm)
      have hb' : c ∉ bs := fun hm => hb (List.mem_cons_of_mem _ hm)
      obtain ⟨h1, h2⟩ := ih ha' hb' h.2
      exact ⟨by rw [h.1, h1], h2⟩

/-! ### Decimal rendering of `Nat`, modelling Python `str(i)` -/

/-- A single decimal digit character. -/
def digitCh (d : Nat) : Char :=
  match d with
  | 0 => '0' | 1 => '1' | 2 => '2' | 3 => '3' | 4 => '4'
  | 5 => '5' | 6 => '6' | 7 => '7' | 8 => '8' | _ => '9'

/-- Numeric value of a digit character (inverse of `digitCh` on `0..9`). -/
def chVal (c : Char) : Nat :=
  match c with
  | '0' => 0 | '1' => 1 | '2' => 2 | '3' => 3 | '4' => 4
  | '5' => 5 | '6' => 6 | '7' => 7 | '8' => 8 | _ => 9

/-- Little-endian decimal digits of `n`, with structural fuel (`fuel > n`
suffices, see `digitsRevF_congr`). -/
def digitsRevF : Nat → Nat → List Char
  | 0, _ => []
  | fuel + 1, n => if n < 10 then [digitCh n] else digitCh (n % 10) :: digitsRevF fuel (n / 10)

/-- Little-endian decimal digits of `n`. -/
def digitsRev (n : Nat) : List Char := digitsRevF (n + 1) n

/-- Decimal rendering of `n`, modelling Python `str(n)`. -/
def natDigits (n : Nat) : List Char := (digitsRev n).reverse

/-- Value of a little-endian digit list. -/
def valRev : List Char → Nat
  | [] => 0
  | c :: cs => chVal c + 10 * valRev cs

theorem chVal_digitCh {d : Nat} (h : d < 10) : chVal (digitCh d) = d := by
  interval_cases d <;> rfl

theorem digitCh_ne_X (d : Nat) : digitCh d ≠ 'X' := by
  unfold digitCh; split <;> decide

theorem valRev_digitsRevF {fuel n : Nat} (h : n < fuel) :
    valRev (digitsRevF fuel n) = n := by
  induction fuel generalizing n with
  | zero => omega
  | succ f ih =>
    by_cases h10 : n < 10
    · simp [digitsRevF, h10, valRev, chVal_digitCh h10]
    · have hlt : n / 10 < f := by
        have : n / 10 < n := Nat.div_lt_self (by omega) (by omega)
        omega
      have hmod : n % 10 < 10 := Nat.mod_lt _ (by omega)
      simp only [digitsRevF, if_neg h10, valRev, ih hlt, chVal_digitCh hmod]
      omega

theorem valRev_digitsRev (n : Nat) : valRev (digitsRev n) = n :=
  valRev_digitsRevF (Nat.lt_succ_self n)

theorem digitsRev_injective {m n : Nat} (h : digitsRev m = digitsRev n) : m = n := by
  have := valRev_digitsRev m
  rw [h, valRev_digitsRev] at this
  omega

theorem mem_digitsRevF_ne_X {fuel n : Nat} {c : Char} (h : c ∈ digitsRevF fuel n) :
    c ≠ 'X' := by
  induction fuel generalizing n with
  | zero => simp [digitsRevF] at h
  | succ f ih =>
    by_cases h10 : n < 10
    · simp only [digitsRevF, if_pos h10, List.mem_singleton] at h
      exact h ▸ digitCh_ne_X n
    · simp only [digitsRevF, if_neg h10, List.mem_cons] at h
      rcases h with rfl | h'
      · exact digitCh_ne_X _
      · exact ih h'

theorem mem_digitsRev_ne_X {n : Nat} {c : Char} (h : c ∈ digitsRev n) : c ≠ 'X' :=
  mem_digitsRevF_ne_X h

theorem natDigits_injective {m n : Nat} (h : natDigits m = natDigits n) : m = n :=
  digitsRev_injective (by
    have := congrArg List.reverse h
    simpa [natDigits] using this)

theorem mem_natDigits_ne_X {n : Nat} {c : Char} (h : c ∈ natDigits n) : c ≠ 'X' :=
  mem_digitsRev_ne_X (List.mem_reverse.mp h)

/-! ### Attribute codec (`wittgenstein_learner.py`, lines 114-132)

`attribute_encode[attribute] = "X" + str(i) + "X"` — the trailing `X`
prevents `X1` from being a prefix of `X10` and `X16`.  `attribute_decode`
is the inverse mapping, followed by structural entries translating the
wittgenstein rule grammar into the canonical grammar. -/

/-- The encoded token of the `i`-th attribute: `"X" + str(i) + "X"`. -/
def tok (i : Nat) : List Char := 'X' :: natDigits i ++ ['X']

/-- Token/name entries of `attribute_decode` (inverse of `attribute_encode`),
starting at index `i0`; the script starts at `i0 = 0`. -/
def tokenEntries : Nat → List (List Char) → List (List Char × List Char)
  | _, [] => []
  | i, n :: ns => (tok i, n) :: tokenEntries (i + 1) ns

/-- Structural entries added to `attribute_decode` after the token entries,
in insertion order; `pos` is `class_attr_domain[1]`. -/
def structuralEntries (pos : List Char) : List (List Char × List Char) :=
  [(" ^ ".toList, ") AND (".toList),
   ("=".toList, " = ".toList),
   ("V".toList, "=> ".toList ++ pos ++ ['\n']),
   ("[[".toList, "(".toList),
   ("]]".toList, ")".toList),
   ("[".toList, "(".toList),
   ("]".toList, ")".toList)]

/-- The full `attribute_decode` substitution table for attribute list
`names` and positive class value `pos`. -/
def attrDecodeTable (names : List (List Char)) (pos : List Char) :
    List (List Char × List Char) :=
  tokenEntries 0 names ++ structuralEntries pos

/-- An attribute name avoiding the characters that the decode table's later
entries substitute: no `X` (so no encoded token can occur in it) and none of
the structural-key characters. -/
def cleanName (s : List Char) : Prop :=
  'X' ∉ s ∧ '=' ∉ s ∧ 'V' ∉ s ∧ '[' ∉ s ∧ ']' ∉ s ∧ '^' ∉ s

instance (s : List Char) : Decidable (cleanName s) := by
  unfold cleanName; infer_instance

theorem tok_ne_nil (i : Nat) : tok i ≠ [] := by simp [tok]

/-- Distinct indices give tokens that never occur inside one another:
the trailing `X` anchors both ends of the digit block. -/
theorem occurs_tok_eq_false {i j : Nat} (hij : i ≠ j) :
    occurs (tok i) (tok j) = false := by
  cases h : occurs (tok i) (tok j) with
  | false => rfl
  | true =>
    exfalso
    rcases occurs_iff.mp h with ⟨t₁, t₂, ht⟩
    have hi : 'X' ∉ natDigits i := fun hm => mem_natDigits_ne_X hm rfl
    have hj : 'X' ∉ natDigits j := fun hm => mem_natDigits_ne_X hm rfl
    cases t₁ with
    | nil =>
      simp only [tok, List.nil_append, List.cons_append, List.cons.injEq] at ht
      have h2 : natDigits j ++ 'X' :: [] = natDigits i ++ 'X' :: t₂ := by
        simpa using ht.2
      obtain ⟨hd, -⟩ := append_cons_inj hj hi h2
      exact hij (natDigits_injective hd).symm
    | cons y ys =>
      -- the tail of `tok j` holds one `X`, but on the right `tok i`
      -- contributes two.
      simp only [tok, List.cons_append, List.cons.injEq] at ht
      have hcount := congrArg (List.count 'X') ht.2
      have hcj : (natDigits j).count 'X' = 0 := List.count_eq_zero.mpr hj
      have hci : (natDigits i).count 'X' = 0 := List.count_eq_zero.mpr hi
      simp [List.count_append, List.count_cons, hcj, hci] at hcount
      omega

theorem mem_tokenEntries {kv : List Char × List Char} :
    ∀ {i : Nat} {ns : List (List Char)}, kv ∈ tokenEntries i ns → ∃ j, kv.1 = tok j := by
  intro i ns
  induction ns generalizing i with
  | nil => intro h; simp [tokenEntries] at h
  | cons n ns ih =>
    intro h
    rcases List.mem_cons.mp h with rfl | h'
    · exact ⟨i, rfl⟩
    · exact ih h'

theorem occurs_eq_false_of_cleanName {s key : List Char}
    (hc : cleanName s)
    (hkey : 'X' ∈ key ∨ '=' ∈ key ∨ 'V' ∈ key ∨ '[' ∈ key ∨ ']' ∈ key ∨ '^' ∈ key) :
    occurs key s = false := by
  obtain ⟨h1, h2, h3, h4, h5, h6⟩ := hc
  rcases hkey with h | h | h | h | h | h
  · exact occurs_eq_false_of_missing_char h h1
  · exact occurs_eq_false_of_missing_char h h2
  · exact occurs_eq_false_of_missing_char h h3
  · exact occurs_eq_false_of_missing_char h h4
  · exact occurs_eq_false_of_missing_char h h5
  · exact occurs_eq_false_of_missing_char h h6

theorem replace_words_cleanName_id {s pos : List Char} {i : Nat}
    {ns : List (List Char)} (hc : cleanName s) :
    replace_words s (tokenEntries i ns ++ structuralEntries pos) = s := by
  apply replace_words_id
  intro kv hkv
  rcases List.mem_append.mp hkv with h | h
  · rcases mem_tokenEntries h with ⟨j, hj⟩
    rw [hj]
    exact occurs_eq_false_of_cleanName hc (Or.inl (List.mem_cons_self _ _))
  · obtain ⟨h1, h2, h3, h4, h5, h6⟩ := hc
    simp only [structuralEntries, List.mem_cons, List.mem_singleton] at h
    rcases h with rfl | rfl | rfl | rfl | rfl | rfl | rfl | h
    · exact occurs_eq_false_of_missing_char (show ('^' : Char) ∈ " ^ ".toList by decide) h6
    · exact occurs_eq_false_of_missing_char (show ('=' : Char) ∈ "=".toList by decide) h2
    · exact occurs_eq_false_of_missing_char (show ('V' : Char) ∈ "V".toList by decide) h3
    · exact occurs_eq_false_of_missing_char (show ('[' : Char) ∈ "[[".toList by decide) h4
    · exact occurs_eq_false_of_missing_char (show (']' : Char) ∈ "]]".toList by decide) h5
    · exact occurs_eq_false_of_missing_char (show ('[' : Char) ∈ "[".toList by decide) h4
    · exact occurs_eq_false_of_missing_char (show (']' : Char) ∈ "]".toList by decide) h5
    · simp at h

/-- Decoding the `k`-th token through `attribute_decode` (tokens starting at
index `i0`) yields the `k`-th name when that name is `cleanName`. -/
theorem decode_tok_general :
    ∀ (ns : List (List Char)) (i0 k : Nat) (hk : k < ns.length) (pos : List Char),
      cleanName (ns.get ⟨k, hk⟩) →
      replace_words (tok (i0 + k)) (tokenEntries i0 ns ++ structuralEntries pos) =
        ns.get ⟨k, hk⟩ := by
  intro ns
  induction ns with
  | nil => intro i0 k hk; simp at hk
  | cons n ns ih =>
    intro i0 k hk pos hc
    cases k with
    | zero =>
      show replace_words (tok i0) ((tok i0, n) :: (tokenEntries (i0 + 1) ns ++ structuralEntries pos)) = n
      show replace_words (replaceAll (tok i0) n (tok i0)) (tokenEntries (i0 + 1) ns ++ structuralEntries pos) = n
      rw [replaceAll_self (tok_ne_nil i0)]
      exact replace_words_cleanName_id hc
    | succ k =>
      have hk' : k < ns.length := by simpa using hk
      have hne : i0 ≠ i0 + (k + 1) := by omega
      show replace_words (tok (i0 + (k + 1)))
        ((tok i0, n) :: (tokenEntries (i0 + 1) ns ++ structuralEntries pos)) = _
      show replace_words (replaceAll (tok i0) n (tok (i0 + (k + 1))))
        (tokenEntries (i0 + 1) ns ++ structuralEntries pos) = _
      rw [replaceAll_of_not_occurs (occurs_tok_eq_false hne)]
      have harith : i0 + (k + 1) = (i0 + 1) + k := by omega
      rw [harith]
      exact ih (i0 + 1) k hk' pos hc

/-- Claim C5 (amended): for every attribute name that contains none of the
characters substituted by later decode-table entries (no `X`, `=`, `V`, `[`,
`]`, `^` — in particular no encoded token and no structural key), applying
the `attribute_decode` substitution table to the token `X<k>X` produced by
the encoding yields the original name back; moreover tokens of distinct
indices (in particular `X1X`, `X10X`, `X16X`) never occur inside one
another, so no token's substitution fires inside another token. -/
theorem c5_codec_roundtrip (names : List (List Char)) (pos : List Char) (k : Nat)
    (hk : k < names.length) (hclean : cleanName (names.get ⟨k, hk⟩)) :
    replace_words (tok k) (attrDecodeTable names pos) = names.get ⟨k, hk⟩ ∧
    ∀ i j : Nat, i ≠ j → occurs (tok i) (tok j) = false := by
  constructor
  · have := decode_tok_general names 0 k hk pos hclean
    simpa [attrDecodeTable] using this
  · intro i j hij
    exact occurs_tok_eq_false hij

/-- Witness for C5: a two-attribute dataset `["age", "sex"]`; decoding the
token `X1X` yields `"sex"`; the cross-decode guarantees hold for the tokens
`X1X`, `X10X`, `X16X`. -/
theorem c5_codec_roundtrip_witness :
    replace_words (tok 1) (attrDecodeTable ["age".toList, "sex".toList] "p".toList) =
      "sex".toList ∧
    occurs (tok 1) (tok 10) = false ∧ occurs (tok 10) (tok 1) = false ∧
    occurs (tok 1) (tok 16) = false ∧ occurs (tok 16) (tok 1) = false ∧
    occurs (tok 10) (tok 16) = false ∧ occurs (tok 16) (tok 10) = false := by
  have h := c5_codec_roundtrip ["age".toList, "sex".toList] "p".toList 1
    (by decide) (by decide)
  exact ⟨h.1, h.2 1 10 (by decide), h.2 10 1 (by decide), h.2 1 16 (by decide),
    h.2 16 1 (by decide), h.2 10 16 (by decide), h.2 16 10 (by decide)⟩

/-- Counterexample to C5 as stated: a dataset whose single attribute is
named `"V"`.  Decoding its token `X0X` first substitutes `V` for the name,
then the structural entry `"V" ↦ "=> <pos>\n"` fires inside the result, so
the round-trip returns `"=> p\n"` instead of `"V"`. -/
theorem c5_counterexample :
    replace_words (tok 0) (attrDecodeTable ["V".toList] "p".toList) = "=> p\n".toList ∧
    "=> p\n".toList ≠ "V".toList := by
  constructor
  · rfl
  · decide

/-! ### The `re` patterns of the range-splitting pass
(`wittgenstein_learner.py`, lines 187-214)

Every quantifier in the five patterns applies to a single-character class,
so a pattern is embedded as a list of (class, quantifier) items.  `mi`
reproduces the leftmost, greedy, backtracking semantics of Python `re` for
such patterns, and `findall` reproduces `re.findall`'s left-to-right
non-overlapping scan. -/

inductive Quant where
  | one | opt | star | plus

/-- One pattern item: a character class plus a quantifier. -/
def Item : Type := (Char → Bool) × Quant

/-- Suffixes reachable by greedily consuming characters of class `p`,
longest consumption first (the backtracking preference order of a greedy
quantifier). -/
def greedySplits (p : Char → Bool) : List Char → List (List Char)
  | [] => [[]]
  | c :: s => if p c then greedySplits p s ++ [c :: s] else [c :: s]

/-- Match the item list against a front of `s`; returns the remaining
suffix of the first (preference-ordered) successful match, `none` if no
match starts at the front of `s`. -/
def mi : List Item → List Char → Option (List Char)
  | [], s => some s
  | (_, .one) :: _, [] => none
  | (p, .one) :: rest, c :: s => if p c then mi rest s else none
  | (_, .opt) :: rest, [] => mi rest []
  | (p, .opt) :: rest, c :: s =>
    if p c then
      match mi rest s with
      | some r => some r
      | none => mi rest (c :: s)
    else mi rest (c :: s)
  | (p, .star) :: rest, s => (greedySplits p s).findSome? (fun t => mi rest t)
  | (_, .plus) :: _, [] => none
  | (p, .plus) :: rest, c :: s =>
    if p c then (greedySplits p s).findSome? (fun t => mi rest t) else none

/-- `re.findall`: scan left to right, trying to match at every position,
emitting non-overlapping matched substrings; `fuel` bounds the scan (the
wrapper supplies enough for the patterns at hand, which never match the
empty string). -/
def findallF : Nat → List Item → List Char → List (List Char)
  | 0, _, _ => []
  | fuel + 1, pat, s =>
    match mi pat s with
    | some rem => s.take (s.length - rem.length) :: findallF fuel pat rem
    | none =>
      match s with
      | [] => []
      | _ :: s' => findallF fuel pat s'

/-- `re.findall(pat, s)`. -/
def findall (pat : List Item) (s : List Char) : List (List Char) :=
  findallF (s.length + 1) pat s

/-- Python `\d`. -/
def isDig (c : Char) : Bool := '0' ≤ c && c ≤ '9'

/-- Python `\s` (ASCII whitespace; the scripts only ever see a space). -/
def isSpc (c : Char) : Bool :=
  c == ' ' || c == '\t' || c == '\n' || c == '\r' || c == '\x0b' || c == '\x0c'

/-- `p = re.compile(r'\([^=]*=\s\-?\d+\.?\d*\-+\d+\.?\d*\)')`. -/
def pMain : List Item :=
  [((· == '('), .one), ((· != '='), .star), ((· == '='), .one), (isSpc, .one),
   ((· == '-'), .opt), (isDig, .plus), ((· == '.'), .opt), (isDig, .star),
   ((· == '-'), .plus), (isDig, .plus), ((· == '.'), .opt), (isDig, .star),
   ((· == ')'), .one)]

/-- `pAtt = re.compile(r'\([^=]*=')`. -/
def pAtt : List Item :=
  [((· == '('), .one), ((· != '='), .star), ((· == '='), .one)]

/-- `pRange = re.compile(r'=\s\-?\d+\.?\d*\-+\d+\.?\d*\)')`. -/
def pRange : List Item :=
  [((· == '='), .one), (isSpc, .one),
   ((· == '-'), .opt), (isDig, .plus), ((· == '.'), .opt), (isDig, .star),
   ((· == '-'), .plus), (isDig, .plus), ((· == '.'), .opt), (isDig, .star),
   ((· == ')'), .one)]

/-- `pLrng = re.compile(r'\-?\d+\.?\d*')`. -/
def pLrng : List Item :=
  [((· == '-'), .opt), (isDig, .plus), ((· == '.'), .opt), (isDig, .star)]

/-- `pRrng = re.compile(r'\-?\d+\.?\d*\)')`. -/
def pRrng : List Item :=
  [((· == '-'), .opt), (isDig, .plus), ((· == '.'), .opt), (isDig, .star),
   ((· == ')'), .one)]

/-- The per-match rewrite of the range-splitting pass: extract the
attribute prefix and the two bounds from the matched range condition and
substitute `'(att >= lv) AND (att <= rv)'` for it (lines 192-212).
Failed `findall(...)[0]` indexing is modelled by `none`. -/
def rangeSubst (m : List Char) : Option (List Char) :=
  match (findall pAtt m).head? with
  | none => none
  | some fAtt =>
    let att := fAtt.dropLast
    match (findall pRange m).head? with
    | none => none
    | some rng =>
      match (findall pLrng rng).head? with
      | none => none
      | some lrng =>
        match (findall pRrng rng).head? with
        | none => none
        | some rrng =>
          some (replaceAll rng
            (">= ".toList ++ lrng ++ ") AND ".toList ++ att ++ "<= ".toList ++ rrng) m)

/-- Loop of the range-splitting pass over the matches found in a rule
(line 189-214): the rule is rewritten once per match. -/
def rangeLoop : List (List Char) → List Char → Option (List Char)
  | [], rule => some rule
  | m :: ms, rule =>
    match rangeSubst m with
    | none => none
    | some s => rangeLoop ms (replaceAll m s rule)

/-- The full range-splitting pass on one rule. -/
def rangePass (rule : List Char) : Option (List Char) :=
  rangeLoop (findall pMain rule) rule

/-- Claim C1: evaluating the range-splitting pass on the spec's example
condition `(age = -5.0-10.0)`.  The right-bound extractor
`r'\-?\d+\.?\d*\)'` scans left to right and its first match starts at the
interior separator hyphen, absorbing it into the right bound: the emitted
text is `(age >= -5.0) AND (age <= -10.0)`, not the spec's
`(age >= -5.0) AND (age <= 10.0)`. -/
theorem c1_range_separator_hyphen_absorbed :
    rangePass "(age = -5.0-10.0)".toList =
      some "(age >= -5.0) AND (age <= -10.0)".toList ∧
    rangePass "(age = -5.0-10.0)".toList ≠
      some "(age >= -5.0) AND (age <= 10.0)".toList := by
  constructor
  · rfl
  · decide

/-! ### Rule-list normalization passes (`wittgenstein_learner.py`, 180-223) -/

/-- The cosmetic pass table of line 219: collapse `'< = '` / `'> = '`. -/
def cosmeticTable : List (List Char × List Char) :=
  [("< = ".toList, "<=".toList), ("> = ".toList, ">=".toList)]

/-- All normalization passes on a single rule line: token substitution with
`attribute_decode` then `domain_decode` (lines 182-185), the range-splitting
pass (lines 187-214), and the cosmetic collapse (line 219). -/
def normalizeLine (attrTbl domTbl : List (List Char × List Char)) (rule : List Char) :
    Option (List Char) :=
  match rangePass (replace_words (replace_words rule attrTbl) domTbl) with
  | none => none
  | some r => some (replace_words r cosmeticTable)

/-- Normalize every captured output line in order. -/
def normalizeLines (attrTbl domTbl : List (List Char × List Char)) :
    List (List Char) → Option (List (List Char))
  | [] => some []
  | r :: rs =>
    match normalizeLine attrTbl domTbl r with
    | none => none
    | some r' =>
      match normalizeLines attrTbl domTbl rs with
      | none => none
      | some rs' => some (r' :: rs')

/-! ### Class-attribute domain (`wittgenstein_learner.py` 94-108,
`sklearn_learner.py` 127-137) -/

/-- `pandas.Series.unique()`: distinct values in first-encounter order. -/
def uniques (xs : List (List Char)) : List (List Char) :=
  xs.foldl (fun acc x => if x ∈ acc then acc else acc ++ [x]) []

/-- The swap of lines 105-108 / 134-137: if the value found second starts
with the reserved negative marker `"NO_"`, the two domain values are
exchanged, so the marked value lands at index 0 (the negative slot). -/
def order_class_domain (d0 d1 : List Char) : List Char × List Char :=
  if startsW d1 "NO_".toList then (d1, d0) else (d0, d1)

/-- `lib.is_binary`: at most two distinct values. -/
def is_binary (vals : List (List Char)) : Bool :=
  (uniques vals).length ≤ 2

/-- The class-domain step of the wittgenstein script (lines 94-108): the
`is_binary` check (`sys.exit` on more than two values), then the indexing
`class_attr_domain[1]` / `[0]` (an uncaught `IndexError` for fewer than two
values), then the `NO_` ordering swap. -/
def witt_class_domain (vals : List (List Char)) :
    Except (List Char) (List Char × List Char) :=
  if ¬ (is_binary vals = true) then
    .error "Error: class attribute is not binary".toList
  else
    match uniques vals with
    | d0 :: d1 :: _ => .ok (order_class_domain d0 d1)
    | _ => .error "IndexError: index 1 is out of bounds".toList

/-- The rule-list path of the wittgenstein script, from the class-domain
step to the normalized rule lines: the class domain is computed (and the
script dies) before any token substitution or range parsing touches the
learner's raw output `raw`. -/
def witt_pipeline (vals : List (List Char)) (names : List (List Char))
    (domTbl : List (List Char × List Char)) (raw : List (List Char)) :
    Except (List Char) (List (List Char)) :=
  match witt_class_domain vals with
  | .error e => .error e
  | .ok cd =>
    match normalizeLines (attrDecodeTable names cd.2) domTbl raw with
    | none => .error "IndexError".toList
    | some rs => .ok rs

/-- Claim C6: whenever exactly one of the two encountered class values
starts with the reserved negative-marker `"NO_"`, the ordering step places
that value at index 0 (negative slot) and the other at index 1 (positive
slot), regardless of encounter order. -/
theorem c6_negative_marker_ordering (d0 d1 : List Char) :
    (startsW d0 "NO_".toList = true → startsW d1 "NO_".toList = false →
      order_class_domain d0 d1 = (d0, d1)) ∧
    (startsW d0 "NO_".toList = false → startsW d1 "NO_".toList = true →
      order_class_domain d0 d1 = (d1, d0)) := by
  constructor
  · intro _ h1
    unfold order_class_domain
    rw [h1]
    simp
  · intro _ h1
    unfold order_class_domain
    rw [h1]
    simp

/-- Witness for C6: the spec's test domain, encountered as
`["NO_default", "paid"]` and as `["paid", "NO_default"]`; both order to
negative `"NO_default"`, positive `"paid"`. -/
theorem c6_negative_marker_ordering_witness :
    order_class_domain "NO_default".toList "paid".toList =
      ("NO_default".toList, "paid".toList) ∧
    order_class_domain "paid".toList "NO_default".toList =
      ("NO_default".toList, "paid".toList) := by
  exact ⟨(c6_negative_marker_ordering "NO_default".toList "paid".toList).1
      (by decide) (by decide),
    (c6_negative_marker_ordering "paid".toList "NO_default".toList).2
      (by decide) (by decide)⟩

/-- Claim C9: when the class attribute has fewer than two distinct values,
the rule-list path terminates with an error in the class-domain step —
before any token substitution or range parsing is attempted (the result is
an error for every possible raw learner output, so no ruleset text is
emitted). -/
theorem c9_degenerate_class_domain (vals names : List (List Char))
    (domTbl : List (List Char × List Char)) (raw : List (List Char))
    (h : (uniques vals).length < 2) :
    ∃ e, witt_pipeline vals names domTbl raw = .error e := by
  refine ⟨"IndexError: index 1 is out of bounds".toList, ?_⟩
  have hbin : is_binary vals = true := by
    simp only [is_binary, decide_eq_true_eq]
    omega
  unfold witt_pipeline witt_class_domain
  rw [if_neg (by simp [hbin])]
  match hu : uniques vals with
  | [] => rfl
  | [d] => rfl
  | d0 :: d1 :: rest =>
    rw [hu] at h
    simp only [List.length_cons] at h
    omega

/-- Witness for C9: a class column with the single distinct value `"a"`. -/
theorem c9_degenerate_class_domain_witness :
    ∃ e, witt_pipeline ["a".toList, "a".toList] ["age".toList] [] [] = .error e :=
  c9_degenerate_class_domain ["a".toList, "a".toList] ["age".toList] [] []
    (by decide)

/-- Claim C8 (amended): a rule text in which no key of the decode tables
occurs (no encoded token, and also none of the structural keys — in
particular no `=` character, which rules out `=>` and equality conditions),
with no range-pattern match and no `'< = '` / `'> = '` fragment, is a fixed
point of the normalizer's passes: running them again leaves it unchanged. -/
theorem c8_normalizer_fixed_point (names : List (List Char)) (pos s : List Char)
    (domTbl : List (List Char × List Char))
    (h1 : ∀ kv ∈ attrDecodeTable names pos, occurs kv.1 s = false)
    (h2 : ∀ kv ∈ domTbl, occurs kv.1 s = false)
    (h3 : findall pMain s = [])
    (h4 : ∀ kv ∈ cosmeticTable, occurs kv.1 s = false) :
    normalizeLine (attrDecodeTable names pos) domTbl s = some s := by
  unfold normalizeLine
  rw [replace_words_id h1, replace_words_id h2]
  unfold rangePass
  rw [h3]
  show some (replace_words s cosmeticTable) = some s
  rw [replace_words_id h4]

/-- Witness for C8: a token-free, `=`-free text is left unchanged by a
second run of the passes. -/
theorem c8_normalizer_fixed_point_witness :
    normalizeLine (attrDecodeTable ["age".toList] "c".toList) [] "abc AND def".toList =
      some "abc AND def".toList :=
  c8_normalizer_fixed_point ["age".toList] "c".toList "abc AND def".toList
    [] (by decide) (by decide) (by decide) (by decide)

/-- Counterexample to C8 as stated: the fully normalized rule text
`"(age >= -5.0) AND (age <= 10.0) => c"` (no encoded tokens, no range
expressions) is changed by a second run of the passes: the decode entry
`"=" ↦ " = "` re-expands every `=`; the cosmetic pass restores `<=` and
`>=` but not `=>`, which comes out as `" = >"`. -/
theorem c8_counterexample :
    normalizeLine (attrDecodeTable ["age".toList] "c".toList) []
        "(age >= -5.0) AND (age <= 10.0) => c".toList =
      some "(age >= -5.0) AND (age <= 10.0)  = > c".toList ∧
    some "(age >= -5.0) AND (age <= 10.0)  = > c".toList ≠
      some "(age >= -5.0) AND (age <= 10.0) => c".toList := by
  constructor
  · rfl
  · decide

/-! ### Data Conditioner (`lib.py`, lines 43-64)

A dataframe is a list of named, typed columns; a missing value (`NaN`) is
`none`.  `clean_dataframe` computes `th = ceil((1-cp)*rowCount)` once,
drops the columns with fewer than `th` non-missing values, then
`clear_numeric_nan` walks the remaining columns in order and, for each
`float64` column, drops every row in which that column is missing. -/

structure PyColumn where
  name : String
  dtype : String
  values : List (Option String)
deriving DecidableEq

/-- Number of non-missing values of a column. -/
def nonNA (c : PyColumn) : Nat := c.values.countP Option.isSome

/-- `len(df.index)`: the row count (columns all share it in a dataframe). -/
def nRows : List PyColumn → Nat
  | [] => 0
  | c :: _ => c.values.length

/-- `th = mt.ceil((1-cp)*len(df.index))` (line 44; real-valued arithmetic
in place of Python floats). -/
def clean_threshold (df : List PyColumn) (cp : ℚ) : Int :=
  ⌈(1 - cp) * (nRows df : ℚ)⌉

/-- `df.dropna(axis='columns', thresh=th)` (line 46): keep the columns with
at least `th` non-missing values. -/
def colPrune (df : List PyColumn) (cp : ℚ) : List PyColumn :=
  df.filter (fun c => decide (clean_threshold df cp ≤ (nonNA c : Int)))

/-- Keep the rows selected by the mask, in every column value list. -/
def applyMask : List Bool → List (Option String) → List (Option String)
  | k :: ks, x :: xs => if k then x :: applyMask ks xs else applyMask ks xs
  | _, _ => []

/-- `df.dropna(subset=[column_name])` (line 58): drop, from every column,
the rows at which the subject column is missing. -/
def dropRowsMask (keep : List Bool) (df : List PyColumn) : List PyColumn :=
  df.map (fun c => ⟨c.name, c.dtype, applyMask keep c.values⟩)

/-- One iteration of the `clear_numeric_nan` loop, on the column at
index `k`. -/
def clearNumericStep (df : List PyColumn) (k : Nat) : List PyColumn :=
  match df.get? k with
  | none => df
  | some c =>
    if c.dtype = "float64" then dropRowsMask (c.values.map Option.isSome) df else df

/-- The `for column_name in df` loop of `clear_numeric_nan`. -/
def clearLoop : List PyColumn → List Nat → List PyColumn
  | df, [] => df
  | df, k :: ks => clearLoop (clearNumericStep df k) ks

/-- `lib.clear_numeric_nan` (lines 55-64). -/
def clear_numeric_nan (df : List PyColumn) : List PyColumn :=
  clearLoop df (List.range df.length)

/-- `lib.clean_dataframe` (lines 43-53). -/
def clean_dataframe (df : List PyColumn) (cp : ℚ) : List PyColumn :=
  clear_numeric_nan (colPrune df cp)

theorem applyMask_subset {ks : List Bool} {xs : List (Option String)}
    {v : Option String} (h : v ∈ applyMask ks xs) : v ∈ xs := by
  induction ks generalizing xs with
  | nil => simp [applyMask] at h
  | cons k ks ih =>
    cases xs with
    | nil => simp [applyMask] at h
    | cons x xs =>
      cases k with
      | true =>
        rw [show applyMask (true :: ks) (x :: xs) = x :: applyMask ks xs from rfl] at h
        rcases List.mem_cons.mp h with rfl | h'
        · exact List.mem_cons_self _ _
        · exact List.mem_cons_of_mem _ (ih h')
      | false =>
        rw [show applyMask (false :: ks) (x :: xs) = applyMask ks xs from rfl] at h
        exact List.mem_cons_of_mem _ (ih h)

theorem applyMask_map_self (p : Option String → Bool) (xs : List (Option String)) :
    applyMask (xs.map p) xs = xs.filter p := by
  induction xs with
  | nil => rfl
  | cons x xs ih =>
    by_cases hp : p x
    · simp [applyMask, List.filter, hp, ih]
    · simp only [List.map_cons, applyMask, List.filter]
      rw [if_neg (by simp [hp]), ih]
      simp [hp]

/-- A column derived from another by row-dropping: same name and dtype,
values a sub-multiset. -/
def colSub (c' c : PyColumn) : Prop :=
  c'.name = c.name ∧ c'.dtype = c.dtype ∧ ∀ v ∈ c'.values, v ∈ c.values

theorem colSub_refl (c : PyColumn) : colSub c c := ⟨rfl, rfl, fun _ h => h⟩

theorem colSub_trans {a b c : PyColumn} (h1 : colSub a b) (h2 : colSub b c) :
    colSub a c :=
  ⟨h1.1.trans h2.1, h1.2.1.trans h2.2.1, fun v hv => h2.2.2 v (h1.2.2 v hv)⟩

theorem dropRowsMask_get {keep : List Bool} {df : List PyColumn} {j : Nat}
    {c' : PyColumn} (h : (dropRowsMask keep df).get? j = some c') :
    ∃ c, df.get? j = some c ∧ c' = ⟨c.name, c.dtype, applyMask keep c.values⟩ := by
  unfold dropRowsMask at h
  rw [List.get?_map] at h
  cases hj : df.get? j with
  | none =>
    rw [hj] at h
    exact absurd h (by simp)
  | some c =>
    rw [hj] at h
    simp only [Option.map_some', Option.some.injEq] at h
    exact ⟨c, rfl, h.symm⟩

theorem clearNumericStep_get {df : List PyColumn} {k j : Nat} {c' : PyColumn}
    (h : (clearNumericStep df k).get? j = some c') :
    ∃ c, df.get? j = some c ∧ colSub c' c := by
  unfold clearNumericStep at h
  split at h
  · exact ⟨c', h, colSub_refl c'⟩
  · split at h
    · obtain ⟨c, hc, rfl⟩ := dropRowsMask_get h
      exact ⟨c, hc, rfl, rfl, fun v hv => applyMask_subset hv⟩
    · exact ⟨c', h, colSub_refl c'⟩

theorem clearLoop_get {ks : List Nat} :
    ∀ {df : List PyColumn} {j : Nat} {c' : PyColumn},
      (clearLoop df ks).get? j = some c' → ∃ c, df.get? j = some c ∧ colSub c' c := by
  induction ks with
  | nil => intro df j c' h; exact ⟨c', h, colSub_refl c'⟩
  | cons k ks ih =>
    intro df j c' h
    obtain ⟨c1, h1, hs1⟩ := ih h
    obtain ⟨c, h2, hs2⟩ := clearNumericStep_get h1
    exact ⟨c, h2, colSub_trans hs1 hs2⟩

/-- The column at index `j` (if any) is a `float64` column with no missing
values. -/
def CleanAt (df : List PyColumn) (j : Nat) : Prop :=
  ∀ c, df.get? j = some c → c.dtype = "float64" →
    ∀ v ∈ c.values, v.isSome = true

theorem clearNumericStep_preserves_CleanAt {df : List PyColumn} {k j : Nat}
    (h : CleanAt df j) : CleanAt (clearNumericStep df k) j := by
  intro c' hget hd v hv
  obtain ⟨c, hc, hname, hdtype, hvals⟩ := clearNumericStep_get hget
  exact h c hc (hdtype ▸ hd) v (hvals v hv)

theorem clearLoop_preserves_CleanAt {ks : List Nat} :
    ∀ {df : List PyColumn} {j : Nat}, CleanAt df j → CleanAt (clearLoop df ks) j := by
  induction ks with
  | nil => intro df j h; exact h
  | cons k ks ih => intro df j h; exact ih (clearNumericStep_preserves_CleanAt h)

theorem clearNumericStep_cleans (df : List PyColumn) (k : Nat) :
    CleanAt (clearNumericStep df k) k := by
  intro c' hget hd v hv
  unfold clearNumericStep at hget
  split at hget
  · next hk => rw [hget] at hk; simp at hk
  · next c hk =>
    split at hget
    · next hdc =>
      obtain ⟨c0, hc0, rfl⟩ := dropRowsMask_get hget
      rw [hk] at hc0
      injection hc0 with heq
      subst heq
      simp only at hv
      rw [applyMask_map_self] at hv
      exact (List.mem_filter.mp hv).2
    · next hdc =>
      rw [hk] at hget
      injection hget with heq
      subst heq
      exact absurd hd hdc

theorem clearLoop_cleans {ks : List Nat} :
    ∀ {df : List PyColumn} {j : Nat}, j ∈ ks → CleanAt (clearLoop df ks) j := by
  induction ks with
  | nil => intro df j hj; simp at hj
  | cons k ks ih =>
    intro df j hj
    rcases List.mem_cons.mp hj with rfl | hj'
    · show CleanAt (clearLoop (clearNumericStep df j) ks) j
      exact clearLoop_preserves_CleanAt (clearNumericStep_cleans df j)
    · exact ih hj'

theorem clearNumericStep_length (df : List PyColumn) (k : Nat) :
    (clearNumericStep df k).length = df.length := by
  unfold clearNumericStep
  split
  · rfl
  · split
    · simp [dropRowsMask]
    · rfl

theorem clearLoop_length (ks : List Nat) :
    ∀ df : List PyColumn, (clearLoop df ks).length = df.length := by
  induction ks with
  | nil => intro df; rfl
  | cons k ks ih =>
    intro df
    rw [show clearLoop df (k :: ks) = clearLoop (clearNumericStep df k) ks from rfl,
      ih, clearNumericStep_length]

/-- Claim C2 (amended): after `clean_dataframe(df, cp)`,
(a) every remaining `float64` column has zero missing values, and
(b) every remaining column descends (same name and dtype, values a
subsequence) from a column that passed the `ceil((1-cp)*rowCount)`
non-missing threshold at column-pruning time — the threshold bound holds
for the column's non-missing count *before* the numeric row-dropping, not
necessarily after it. -/
theorem c2_condition_postcondition (df : List PyColumn) (cp : ℚ) :
    (∀ c ∈ clean_dataframe df cp, c.dtype = "float64" →
      ∀ v ∈ c.values, v.isSome = true) ∧
    (∀ j c, (clean_dataframe df cp).get? j = some c →
      ∃ c₀, (colPrune df cp).get? j = some c₀ ∧ c.name = c₀.name ∧
        c.dtype = c₀.dtype ∧ clean_threshold df cp ≤ (nonNA c₀ : Int) ∧
        ∀ v ∈ c.values, v ∈ c₀.values) := by
  constructor
  · intro c hc hd v hv
    obtain ⟨j, hj⟩ := List.mem_iff_get?.mp hc
    have hlt : j < (colPrune df cp).length := by
      by_contra hge
      rw [List.get?_eq_none.mpr (by
        unfold clean_dataframe clear_numeric_nan at hj ⊢
        rw [clearLoop_length]
        omega)] at hj
      exact Option.noConfusion hj
    have hmem : j ∈ List.range (colPrune df cp).length := List.mem_range.mpr hlt
    exact clearLoop_cleans hmem c hj hd v hv
  · intro j c hj
    obtain ⟨c₀, hc₀, hname, hdtype, hvals⟩ := clearLoop_get hj
    refine ⟨c₀, hc₀, hname, hdtype, ?_, hvals⟩
    have hmem : c₀ ∈ colPrune df cp := List.get?_mem hc₀
    have := (List.mem_filter.mp hmem).2
    exact of_decide_eq_true this

/-- The concrete dataframe showing the original C2 fails: a numeric column
`A` and a categorical column `B`, three rows, missing values in different
rows. -/
def exDF : List PyColumn :=
  [⟨"A", "float64", [none, some "1", some "2"]⟩,
   ⟨"B", "object", [some "x", none, some "y"]⟩]

theorem exDF_threshold : clean_threshold exDF (1/2) = 2 := by
  show ⌈(1 - (1/2 : ℚ)) * ((3 : Nat) : ℚ)⌉ = 2
  rw [Int.ceil_eq_iff]
  norm_num

theorem exDF_clean_eval :
    clean_dataframe exDF (1/2) =
      [⟨"A", "float64", [some "1", some "2"]⟩,
       ⟨"B", "object", [none, some "y"]⟩] := by
  unfold clean_dataframe colPrune
  simp only [exDF_threshold]
  decide

/-- Counterexample to C2 as stated: with three rows and `cp = 1/2` the
threshold is `ceil(3/2) = 2`; both columns pass the column pruning, but
dropping the row where `A` is missing also drops a non-missing `B` entry,
leaving `B` with one non-missing value — below the threshold. -/
theorem c2_counterexample :
    ∃ c ∈ clean_dataframe exDF (1/2),
      (nonNA c : Int) < clean_threshold exDF (1/2) := by
  refine ⟨⟨"B", "object", [none, some "y"]⟩, ?_, ?_⟩
  · rw [exDF_clean_eval]
    exact List.mem_cons_of_mem _ (List.mem_cons_self _ _)
  · rw [exDF_threshold]
    decide

/-- Witness for C2: the amended postcondition applied to the concrete
dataframe `exDF` with `cp = 1/2`. -/
theorem c2_condition_postcondition_witness :
    (∀ v ∈ [some "1", some "2"], Option.isSome v = true) ∧
    (∃ c₀, (colPrune exDF (1/2)).get? 1 = some c₀ ∧ "B" = c₀.name ∧
      "object" = c₀.dtype ∧ clean_threshold exDF (1/2) ≤ (nonNA c₀ : Int) ∧
      ∀ v ∈ [none, some "y"], v ∈ c₀.values) := by
  have h := c2_condition_postcondition exDF (1/2)
  constructor
  · intro v hv
    exact h.1 ⟨"A", "float64", [some "1", some "2"]⟩
      (by rw [exDF_clean_eval]; exact List.mem_cons_self _ _) rfl v hv
  · exact h.2 1 ⟨"B", "object", [none, some "y"]⟩ (by rw [exDF_clean_eval]; rfl)

/-! ### Tree Rule Extractor (`lib.py`, lines 97-200)

A fitted binary decision tree: each node either carries a split feature
index with a threshold (kept in its printed form, since `recurse` only ever
interpolates it into a string) and two children, or is a leaf carrying the
encoded vote value `tree_.value[node].T[0]`.  `recurse` walks the tree
depth first, left child before right, accumulating antecedent strings, and
emits one `rule` array (`[ant0, ..., antN, consequent]`) per leaf;
`print_rule` renders one array (crashing on a rule with no antecedent —
modelled by `none`). -/

structure PyFeature where
  name : String
  type : String
deriving DecidableEq

inductive PyTree where
  | node (feature : Nat) (threshold : String) (left right : PyTree)
  | leaf (value : Int)
deriving DecidableEq

/-- `print_rule` (lines 130-151): pop the consequent, pop the last
antecedent (an `IndexError` — `none` — when absent), join the remaining
antecedents with `" AND "`, then append `"last => consequent"`. -/
def print_rule (rule : List String) : Option String :=
  match rule.getLast?, rule.dropLast.getLast? with
  | some consequent, some lastAnt =>
    some ((rule.dropLast.dropLast).foldl (fun acc a => acc ++ a ++ " AND ") "" ++
      lastAnt ++ " => " ++ consequent)
  | _, _ => none

/-- `recurse` (lines 153-198): `cd` is `class_attr_domain` as
(negative, positive); `dd` is `domain_decode`, mapping a categorical
attribute name to the decoded values of codes 0 and 1.  A split feature of
type `float64` yields `(name <= th)` / `(name > th)`; of type `int64`
yields `(name = dd[name][0])` / `(name = dd[name][1])`; any other type hits
`exit(...)`.  At a leaf the consequent is `cd[0]` if the vote value is
nonzero, else `cd[1]`. -/
def recurse (features : List PyFeature) (cd : String × String)
    (dd : List (String × String × String)) : PyTree → List String →
    Except String (List (List String))
  | .node f th l r, antecedents =>
    match features.get? f with
    | none => .error "IndexError: feature index out of range"
    | some ft =>
      if ft.type = "float64" then
        match recurse features cd dd l (antecedents ++ ["(" ++ ft.name ++ " <= " ++ th ++ ")"]) with
        | .error e => .error e
        | .ok rl =>
          match recurse features cd dd r (antecedents ++ ["(" ++ ft.name ++ " > " ++ th ++ ")"]) with
          | .error e => .error e
          | .ok rr => .ok (rl ++ rr)
      else if ft.type = "int64" then
        match List.lookup ft.name dd with
        | none => .error "KeyError: domain_decode"
        | some dv =>
          match recurse features cd dd l (antecedents ++ ["(" ++ ft.name ++ " = " ++ dv.1 ++ ")"]) with
          | .error e => .error e
          | .ok rl =>
            match recurse features cd dd r (antecedents ++ ["(" ++ ft.name ++ " = " ++ dv.2 ++ ")"]) with
            | .error e => .error e
            | .ok rr => .ok (rl ++ rr)
      else
        .error ("Error: couldn't translate attribute " ++ ft.name ++ " of type " ++ ft.type ++ ".\n")
  | .leaf v, antecedents =>
    .ok [antecedents ++ [if v ≠ 0 then cd.1 else cd.2]]

/-- Render every collected rule array, in emission order; any failing
`print_rule` aborts (the script dies on the `IndexError`). -/
def printAll : List (List String) → Option (List String)
  | [] => some []
  | r :: rs =>
    match print_rule r, printAll rs with
    | some s, some ss => some (s :: ss)
    | _, _ => none

/-- `lib.tree_to_ruleset`: traverse from the root with no accumulated
antecedents and print one rule per leaf. -/
def tree_to_ruleset (features : List PyFeature) (cd : String × String)
    (dd : List (String × String × String)) (t : PyTree) :
    Except String (List String) :=
  match recurse features cd dd t [] with
  | .error e => .error e
  | .ok arrays =>
    match printAll arrays with
    | none => .error "IndexError: pop from empty list"
    | some rs => .ok rs

/-- The leaves' encoded vote values in depth-first, left-before-right
order (reference enumeration for output order). -/
def leafValues : PyTree → List Int
  | .leaf v => [v]
  | .node _ _ l r => leafValues l ++ leafValues r

theorem recurse_node_float_inv {features : List PyFeature} {cd : String × String}
    {dd : List (String × String × String)} {f : Nat} {th : String} {l r : PyTree}
    {ants : List String} {arrays : List (List String)} {ft : PyFeature}
    (hf : features.get? f = some ft) (hty : ft.type = "float64")
    (h : recurse features cd dd (.node f th l r) ants = .ok arrays) :
    ∃ rl rr,
      recurse features cd dd l (ants ++ ["(" ++ ft.name ++ " <= " ++ th ++ ")"]) = .ok rl ∧
      recurse features cd dd r (ants ++ ["(" ++ ft.name ++ " > " ++ th ++ ")"]) = .ok rr ∧
      arrays = rl ++ rr := by
  unfold recurse at h
  split at h
  · next heq => rw [hf] at heq; exact absurd heq (by simp)
  · next ft' heq =>
    rw [hf] at heq
    injection heq with heq'
    subst heq'
    rw [if_pos hty] at h
    split at h
    · exact absurd h (by simp)
    · next rl heql =>
      split at h
      · exact absurd h (by simp)
      · next rr heqr =>
        injection h with h'
        exact ⟨rl, rr, heql, heqr, h'.symm⟩

theorem recurse_node_int_inv {features : List PyFeature} {cd : String × String}
    {dd : List (String × String × String)} {f : Nat} {th : String} {l r : PyTree}
    {ants : List String} {arrays : List (List String)} {ft : PyFeature}
    {dv : String × String}
    (hf : features.get? f = some ft) (hty : ft.type = "int64")
    (hdd : List.lookup ft.name dd = some dv)
    (h : recurse features cd dd (.node f th l r) ants = .ok arrays) :
    ∃ rl rr,
      recurse features cd dd l (ants ++ ["(" ++ ft.name ++ " = " ++ dv.1 ++ ")"]) = .ok rl ∧
      recurse features cd dd r (ants ++ ["(" ++ ft.name ++ " = " ++ dv.2 ++ ")"]) = .ok rr ∧
      arrays = rl ++ rr := by
  have hnf : ¬ ft.type = "float64" := by rw [hty]; decide
  unfold recurse at h
  split at h
  · next heq => rw [hf] at heq; exact absurd heq (by simp)
  · next ft' heq =>
    rw [hf] at heq
    injection heq with heq'
    subst heq'
    rw [if_neg hnf, if_pos hty] at h
    split at h
    · next heqd => rw [hdd] at heqd; exact absurd heqd (by simp)
    · next dv' heqd =>
      rw [hdd] at heqd
      injection heqd with heqd'
      subst heqd'
      split at h
      · exact absurd h (by simp)
      · next rl heql =>
        split at h
        · exact absurd h (by simp)
        · next rr heqr =>
          injection h with h'
          exact ⟨rl, rr, heql, heqr, h'.symm⟩

theorem recurse_node_other {features : List PyFeature} {cd : String × String}
    {dd : List (String × String × String)} {f : Nat} {th : String} {l r : PyTree}
    {ants : List String} {ft : PyFeature}
    (hf : features.get? f = some ft)
    (h1 : ¬ ft.type = "float64") (h2 : ¬ ft.type = "int64") :
    recurse features cd dd (.node f th l r) ants =
      .error ("Error: couldn't translate attribute " ++ ft.name ++ " of type " ++
        ft.type ++ ".\n") := by
  unfold recurse
  rw [hf]
  simp [h1, h2]

theorem recurse_node_int_nolookup {features : List PyFeature} {cd : String × String}
    {dd : List (String × String × String)} {f : Nat} {th : String} {l r : PyTree}
    {ants : List String} {ft : PyFeature}
    (hf : features.get? f = some ft) (hty : ft.type = "int64")
    (hdd : List.lookup ft.name dd = none) :
    recurse features cd dd (.node f th l r) ants = .error "KeyError: domain_decode" := by
  have hnf : ¬ ft.type = "float64" := by rw [hty]; decide
  unfold recurse
  rw [hf]
  simp [hnf, hty, hdd]

theorem recurse_ok_spec {features : List PyFeature} {cd : String × String}
    {dd : List (String × String × String)} :
    ∀ {t : PyTree} {ants : List String} {arrays : List (List String)},
      recurse features cd dd t ants = .ok arrays →
      arrays.map (fun a => a.getLast?) =
        (leafValues t).map (fun v => some (if v ≠ 0 then cd.1 else cd.2)) ∧
      ∀ a ∈ arrays, ants.length < a.length := by
  intro t
  induction t with
  | leaf v =>
    intro ants arrays h
    unfold recurse at h
    injection h with h'
    constructor
    · rw [← h']
      simp [leafValues, List.getLast?_concat]
    · intro a ha
      rw [← h'] at ha
      rcases List.mem_singleton.mp ha with rfl
      simp
  | node f th l r ihl ihr =>
    intro ants arrays h
    cases hf : features.get? f with
    | none =>
      unfold recurse at h
      rw [hf] at h
      simp at h
    | some ft =>
      by_cases h1 : ft.type = "float64"
      · obtain ⟨rl, rr, heql, heqr, rfl⟩ := recurse_node_float_inv hf h1 h
        obtain ⟨hm1, hl1⟩ := ihl heql
        obtain ⟨hm2, hl2⟩ := ihr heqr
        constructor
        · simp only [List.map_append, hm1, hm2, leafValues]
        · intro a ha
          rcases List.mem_append.mp ha with ha | ha
          · have := hl1 a ha; simp only [List.length_append, List.length_cons,
              List.length_nil] at this; omega
          · have := hl2 a ha; simp only [List.length_append, List.length_cons,
              List.length_nil] at this; omega
      · by_cases h2 : ft.type = "int64"
        · cases hld : List.lookup ft.name dd with
          | none =>
            rw [recurse_node_int_nolookup hf h2 hld] at h
            exact absurd h (by simp)
          | some dv =>
            obtain ⟨rl, rr, heql, heqr, rfl⟩ := recurse_node_int_inv hf h2 hld h
            obtain ⟨hm1, hl1⟩ := ihl heql
            obtain ⟨hm2, hl2⟩ := ihr heqr
            constructor
            · simp only [List.map_append, hm1, hm2, leafValues]
            · intro a ha
              rcases List.mem_append.mp ha with ha | ha
              · have := hl1 a ha; simp only [List.length_append, List.length_cons,
                  List.length_nil] at this; omega
              · have := hl2 a ha; simp only [List.length_append, List.length_cons,
                  List.length_nil] at this; omega
        · rw [recurse_node_other hf h1 h2] at h
          exact absurd h (by simp)

theorem recurse_node_min_length {features : List PyFeature} {cd : String × String}
    {dd : List (String × String × String)} {f : Nat} {th : String} {l r : PyTree}
    {ants : List String} {arrays : List (List String)}
    (h : recurse features cd dd (.node f th l r) ants = .ok arrays) :
    ∀ a ∈ arrays, ants.length + 2 ≤ a.length := by
  cases hf : features.get? f with
  | none =>
    unfold recurse at h
    rw [hf] at h
    simp at h
  | some ft =>
    by_cases h1 : ft.type = "float64"
    · obtain ⟨rl, rr, heql, heqr, rfl⟩ := recurse_node_float_inv hf h1 h
      intro a ha
      rcases List.mem_append.mp ha with ha | ha
      · have := (recurse_ok_spec heql).2 a ha
        simp only [List.length_append, List.length_cons, List.length_nil] at this
        omega
      · have := (recurse_ok_spec heqr).2 a ha
        simp only [List.length_append, List.length_cons, List.length_nil] at this
        omega
    · by_cases h2 : ft.type = "int64"
      · cases hld : List.lookup ft.name dd with
        | none =>
          rw [recurse_node_int_nolookup hf h2 hld] at h
          exact absurd h (by simp)
        | some dv =>
          obtain ⟨rl, rr, heql, heqr, rfl⟩ := recurse_node_int_inv hf h2 hld h
          intro a ha
          rcases List.mem_append.mp ha with ha | ha
          · have := (recurse_ok_spec heql).2 a ha
            simp only [List.length_append, List.length_cons, List.length_nil] at this
            omega
          · have := (recurse_ok_spec heqr).2 a ha
            simp only [List.length_append, List.length_cons, List.length_nil] at this
            omega
      · rw [recurse_node_other hf h1 h2] at h
        exact absurd h (by simp)

theorem printAll_spec :
    ∀ {arrays : List (List String)} {rs : List String}, printAll arrays = some rs →
      rs.length = arrays.length ∧
      ∀ k a, arrays.get? k = some a → ∃ s, rs.get? k = some s ∧ print_rule a = some s := by
  intro arrays
  induction arrays with
  | nil =>
    intro rs h
    injection h with h'
    subst h'
    exact ⟨rfl, by intro k a ha; simp at ha⟩
  | cons a as ih =>
    intro rs h
    unfold printAll at h
    split at h
    · next s ss heq1 heq2 =>
      injection h with h'
      subst h'
      obtain ⟨hlen, hspec⟩ := ih heq2
      refine ⟨by simp [hlen], ?_⟩
      intro k b hb
      cases k with
      | zero =>
        injection hb with hb'
        subst hb'
        exact ⟨s, rfl, heq1⟩
      | succ k => exact hspec k b hb
    · exact absurd h (by simp)

theorem print_rule_shape {rule : List String} {c : String}
    (hc : rule.getLast? = some c) (hlen : 2 ≤ rule.length) :
    ∃ pre, print_rule rule = some (pre ++ " => " ++ c) := by
  have hd : rule.dropLast ≠ [] := by
    intro hnil
    have := congrArg List.length hnil
    rw [List.length_dropLast] at this
    simp at this
    omega
  cases hla : rule.dropLast.getLast? with
  | none => exact absurd (List.getLast?_eq_none.mp hla) hd
  | some la =>
    refine ⟨(rule.dropLast.dropLast).foldl (fun acc a => acc ++ a ++ " AND ") "" ++ la, ?_⟩
    simp only [print_rule, hc, hla]

/-- The spec's end-to-end scenario: one split `sepal_length <= 5.0`, left
leaf vote value 0, right leaf vote value 1, class domain
`(setosa, versicolor)`. -/
def irisTree : PyTree := .node 0 "5.0" (.leaf 0) (.leaf 1)

def irisFeatures : List PyFeature := [⟨"sepal_length", "float64"⟩]

/-- Claim C3: at each leaf (in depth-first left-before-right order) the
consequent appended to the emitted rule array is `classDomain[1]` when the
leaf's encoded vote value is 0 and `classDomain[0]` when it is nonzero. -/
theorem c3_leaf_polarity (features : List PyFeature) (cd : String × String)
    (dd : List (String × String × String)) (t : PyTree) (ants : List String)
    (arrays : List (List String)) (k : Nat) (v : Int)
    (h : recurse features cd dd t ants = .ok arrays)
    (hv : (leafValues t).get? k = some v) :
    ∃ a, arrays.get? k = some a ∧
      a.getLast? = some (if v = 0 then cd.2 else cd.1) := by
  have hm := (recurse_ok_spec h).1
  have hk := congrArg (fun l => l.get? k) hm
  simp only [List.get?_map, hv, Option.map_some'] at hk
  cases ha : arrays.get? k with
  | none => rw [ha] at hk; simp at hk
  | some a =>
    rw [ha] at hk
    simp only [Option.map_some', Option.some.injEq] at hk
    refine ⟨a, rfl, ?_⟩
    rw [hk]
    by_cases h0 : v = 0 <;> simp [h0]

/-- Witness for C3: the one-split iris tree; the left leaf (vote value 0)
gets consequent `versicolor = classDomain[1]`, the right leaf (vote 1) gets
`setosa = classDomain[0]`, and the printed ruleset is exactly the spec's
two rules. -/
theorem c3_leaf_polarity_witness :
    tree_to_ruleset irisFeatures ("setosa", "versicolor") [] irisTree =
      .ok ["(sepal_length <= 5.0) => versicolor", "(sepal_length > 5.0) => setosa"] ∧
    (∃ a, [["(sepal_length <= 5.0)", "versicolor"],
           ["(sepal_length > 5.0)", "setosa"]].get? 0 = some a ∧
      a.getLast? = some "versicolor") ∧
    (∃ a, [["(sepal_length <= 5.0)", "versicolor"],
           ["(sepal_length > 5.0)", "setosa"]].get? 1 = some a ∧
      a.getLast? = some "setosa") :=
  ⟨rfl,
   c3_leaf_polarity irisFeatures ("setosa", "versicolor") [] irisTree [] _ 0 0 rfl rfl,
   c3_leaf_polarity irisFeatures ("setosa", "versicolor") [] irisTree [] _ 1 1 rfl rfl⟩

/-- Claim C4: at an internal node, a `float64` split yields the left
antecedent `(name <= threshold)` and right antecedent `(name > threshold)`;
an `int64` (binary-categorical) split yields `(name = domainDecode[name][0])`
and `(name = domainDecode[name][1])`; any other type is a fatal error whose
message names the offending attribute and its type. -/
theorem c4_antecedent_generation (features : List PyFeature) (cd : String × String)
    (dd : List (String × String × String)) (f : Nat) (th : String) (l r : PyTree)
    (ants : List String) (ft : PyFeature)
    (hf : features.get? f = some ft) :
    (ft.type = "float64" → ∀ arrays,
      recurse features cd dd (.node f th l r) ants = .ok arrays →
      ∃ rl rr,
        recurse features cd dd l (ants ++ ["(" ++ ft.name ++ " <= " ++ th ++ ")"]) = .ok rl ∧
        recurse features cd dd r (ants ++ ["(" ++ ft.name ++ " > " ++ th ++ ")"]) = .ok rr ∧
        arrays = rl ++ rr) ∧
    (∀ dv, ft.type = "int64" → List.lookup ft.name dd = some dv → ∀ arrays,
      recurse features cd dd (.node f th l r) ants = .ok arrays →
      ∃ rl rr,
        recurse features cd dd l (ants ++ ["(" ++ ft.name ++ " = " ++ dv.1 ++ ")"]) = .ok rl ∧
        recurse features cd dd r (ants ++ ["(" ++ ft.name ++ " = " ++ dv.2 ++ ")"]) = .ok rr ∧
        arrays = rl ++ rr) ∧
    (¬ ft.type = "float64" → ¬ ft.type = "int64" →
      recurse features cd dd (.node f th l r) ants =
        .error ("Error: couldn't translate attribute " ++ ft.name ++ " of type " ++
          ft.type ++ ".\n")) :=
  ⟨fun hty _ h => recurse_node_float_inv hf hty h,
   fun _ hty hdd _ h => recurse_node_int_inv hf hty hdd h,
   fun h1 h2 => recurse_node_other hf h1 h2⟩

/-- Witness for C4: a split on an attribute of unsupported type `"str"`
aborts with the message naming the attribute and its type, and the iris
`float64` split decomposes into the two complementary antecedents. -/
theorem c4_antecedent_generation_witness :
    recurse [⟨"age", "str"⟩] ("a", "b") [] (.node 0 "1.0" (.leaf 0) (.leaf 1)) [] =
      .error "Error: couldn't translate attribute age of type str.\n" ∧
    (∃ rl rr,
      recurse irisFeatures ("setosa", "versicolor") [] (.leaf 0)
        ["(sepal_length <= 5.0)"] = .ok rl ∧
      recurse irisFeatures ("setosa", "versicolor") [] (.leaf 1)
        ["(sepal_length > 5.0)"] = .ok rr ∧
      [["(sepal_length <= 5.0)", "versicolor"], ["(sepal_length > 5.0)", "setosa"]] =
        rl ++ rr) := by
  constructor
  · exact (c4_antecedent_generation [⟨"age", "str"⟩] ("a", "b") [] 0 "1.0"
      (.leaf 0) (.leaf 1) [] ⟨"age", "str"⟩ rfl).2.2 (by decide) (by decide)
  · exact (c4_antecedent_generation irisFeatures ("setosa", "versicolor") [] 0 "5.0"
      (.leaf 0) (.leaf 1) [] ⟨"sepal_length", "float64"⟩ rfl).1 rfl _ rfl

/-- Claim C7 (amended): for every tree whose root is an internal node (so
every leaf has at least one antecedent and `print_rule` cannot fail),
extraction emits exactly one rule per leaf, and the `k`-th emitted rule's
consequent is that of the `k`-th leaf in depth-first, left-before-right
order. -/
theorem c7_one_rule_per_leaf (features : List PyFeature) (cd : String × String)
    (dd : List (String × String × String)) (f : Nat) (th : String) (l r : PyTree)
    (rules : List String)
    (h : tree_to_ruleset features cd dd (.node f th l r) = .ok rules) :
    rules.length = (leafValues (.node f th l r)).length ∧
    ∀ k v, (leafValues (.node f th l r)).get? k = some v →
      ∃ pre, rules.get? k = some (pre ++ " => " ++ (if v = 0 then cd.2 else cd.1)) := by
  unfold tree_to_ruleset at h
  split at h
  · exact absurd h (by simp)
  · next arrays heqr =>
    split at h
    · exact absurd h (by simp)
    · next rs heqp =>
      injection h with h'
      subst h'
      obtain ⟨hplen, hpspec⟩ := printAll_spec heqp
      have hmap := (recurse_ok_spec heqr).1
      have hmlen := congrArg List.length hmap
      simp only [List.length_map] at hmlen
      have hminlen := recurse_node_min_length heqr
      constructor
      · rw [hplen, hmlen]
      · intro k v hv
        have hk := congrArg (fun ll => ll.get? k) hmap
        simp only [List.get?_map, hv, Option.map_some'] at hk
        cases ha : arrays.get? k with
        | none => rw [ha] at hk; simp at hk
        | some a =>
          rw [ha] at hk
          simp only [Option.map_some', Option.some.injEq] at hk
          obtain ⟨s, hs, hps⟩ := hpspec k a ha
          have hlen2 : 2 ≤ a.length := by
            have := hminlen a (List.get?_mem ha)
            simpa using this
          have hpol : a.getLast? = some (if v = 0 then cd.2 else cd.1) := by
            rw [hk]
            by_cases h0 : v = 0 <;> simp [h0]
          obtain ⟨pre, hpre⟩ := print_rule_shape hpol hlen2
          rw [hps] at hpre
          injection hpre with hpre'
          exact ⟨pre, by rw [hs, hpre']⟩

/-- Witness for C7: the iris tree (internal root) yields exactly two rules,
one per leaf, in left-to-right leaf order. -/
theorem c7_one_rule_per_leaf_witness :
    (["(sepal_length <= 5.0) => versicolor",
      "(sepal_length > 5.0) => setosa"] : List String).length =
      (leafValues irisTree).length ∧
    (∃ pre, (["(sepal_length <= 5.0) => versicolor",
      "(sepal_length > 5.0) => setosa"] : List String).get? 0 =
        some (pre ++ " => " ++ "versicolor")) := by
  have h := c7_one_rule_per_leaf irisFeatures ("setosa", "versicolor") [] 0 "5.0"
    (.leaf 0) (.leaf 1)
    ["(sepal_length <= 5.0) => versicolor", "(sepal_length > 5.0) => setosa"] rfl
  exact ⟨h.1, h.2 0 0 rfl⟩

/-- Counterexample to C7 as stated: a tree that is a single leaf has one
leaf but extraction emits no rule at all — `print_rule` pops from an empty
antecedent list and the script dies with an `IndexError`. -/
theorem c7_counterexample :
    tree_to_ruleset irisFeatures ("setosa", "versicolor") [] (.leaf 0) =
      .error "IndexError: pop from empty list" ∧
    (leafValues (.leaf 0)).length = 1 := ⟨rfl, rfl⟩

/-! ### Class-attribute selection (`lib.py` 28-29, `sklearn_learner.py`
101-104, `wittgenstein_learner.py` 94-110) -/

/-- `lib.get_class_attr`: `df.columns[-2]`, the second-to-last column name
(an `IndexError` — `none` — on fewer than two columns). -/
def get_class_attr (cols : List String) : Option String :=
  if cols.length < 2 then none else cols.get? (cols.length - 2)

/-- `train.drop(['__ID_piton__'], axis='columns')`: removes the identifier
column (pandas raises — `none` — when it is absent). -/
def drop_id_column (cols : List String) : Option (List String) :=
  if "__ID_piton__" ∈ cols then some (cols.erase "__ID_piton__") else none

/-- The shared opening of both learner scripts: the classification target
is read off the column list *before* the identifier column is dropped. -/
def learner_select_target (cols : List String) : Option (String × List String) :=
  match get_class_attr cols with
  | none => none
  | some ca =>
    match drop_id_column cols with
    | none => none
    | some rest => some (ca, rest)

/-- Claim C10: the class attribute is selected purely positionally — for
any column list ending in `[c, last]`, whatever the names and contents,
`get_class_attr` returns `c`, the second-to-last column; and in the
learners' pipeline order (selection before the identifier drop), with the
trailing identifier column `__ID_piton__`, the target is exactly the column
immediately preceding it, which survives the drop. -/
theorem c10_positional_class_attr (pre : List String) (c last : String) :
    get_class_attr (pre ++ [c, last]) = some c ∧
    ("__ID_piton__" ∉ pre → c ≠ "__ID_piton__" →
      learner_select_target (pre ++ [c, "__ID_piton__"]) = some (c, pre ++ [c])) := by
  have hget : ∀ x : String, get_class_attr (pre ++ [c, x]) = some c := by
    intro x
    have hlen : (pre ++ [c, x]).length = pre.length + 2 := by simp
    unfold get_class_attr
    rw [hlen, if_neg (by omega)]
    have h2 : pre.length + 2 - 2 = pre.length := by omega
    rw [h2, List.get?_append_right (Nat.le_refl _), Nat.sub_self]
    rfl
  constructor
  · exact hget last
  · intro hpre hc
    unfold learner_select_target
    rw [hget "__ID_piton__"]
    unfold drop_id_column
    rw [if_pos (by simp)]
    rw [List.erase_append_right _ hpre]
    have he : ([c, "__ID_piton__"] : List String).erase "__ID_piton__" = [c] := by
      rw [List.erase_cons_tail (by simpa using hc), List.erase_cons_head]
    rw [he]

/-- Witness for C10: a three-column table `[x, credit, __ID_piton__]`; the
target is `credit` (the second-to-last column), kept after the identifier
drop. -/
theorem c10_positional_class_attr_witness :
    get_class_attr ["x", "credit", "__ID_piton__"] = some "credit" ∧
    learner_select_target ["x", "credit", "__ID_piton__"] =
      some ("credit", ["x", "credit"]) := by
  have h := c10_positional_class_attr ["x"] "credit" "__ID_piton__"
  exact ⟨h.1, h.2 (by decide) (by decide)⟩

end Piton
